import Mathlib

/-!
Verification of the xDS ACK tracking wrapper of `pkg/envoy/xds/ack.go`
(`AckingResourceMutatorWrapper`): a shallow embedding of its state and of the
operations `Upsert`, `Delete`, `UseCurrent`, the returned revert closures and
`HandleResourceVersionAck`, together with theorems about the ACK/NACK
resolution protocol.

Go maps are embedded as association lists (insert-or-replace, lookup of the
unique key); `map[string]map[string]struct{}` values that may be `nil` become
`Option (List String)` with `none` standing for the nil map (whose `len` is 0
and on which `delete` is a no-op).  The wrapped `ResourceMutator` and the
`completion` package are external to the file under verification: the
mutator's results (version, updated, revert) are taken as parameters, and a
`Completion` is identified by a numeric token whose cancellation status
(`Err() != nil`) is an oracle parameter.
-/

namespace XdsAck

/-- Association-list lookup, the embedding of `v, found := m[k]`. -/
def alookup {κ α : Type} [DecidableEq κ] : List (κ × α) → κ → Option α
  | [], _ => none
  | (k, v) :: t, k' => if k = k' then some v else alookup t k'

/-- Association-list insert-or-replace, the embedding of `m[k] = v`. -/
def ainsert {κ α : Type} [DecidableEq κ] : List (κ × α) → κ → α → List (κ × α)
  | [], k, v => [(k, v)]
  | (k', v') :: t, k, v =>
      if k' = k then (k, v) :: t else (k', v') :: ainsert t k v

/-- Association-list key removal, the embedding of `delete(m, k)`. -/
def aerase {κ α : Type} [DecidableEq κ] : List (κ × α) → κ → List (κ × α)
  | [], _ => []
  | (k', v') :: t, k => if k' = k then t else (k', v') :: aerase t k

/-- The error wrapped by a NACK `ProxyError`; the only base error the ack
tracker produces is `ErrNackReceived` (`errors.New("NACK received")`). -/
inductive BaseErr where
  | nackReceived
deriving DecidableEq, Repr

/-- Embedding of `ProxyError`: wraps the base error and the detail received from the proxy
(`ack.go` lines 19-24). -/
structure ProxyError where
  err : BaseErr
  detail : String
deriving DecidableEq, Repr

/-- Embedding of `pendingCompletion` (`ack.go` lines 126-137), an update pending completion.
`remainingNodesResources` maps each pending node ID to the set of pending
resource names; a `none` set means "any ACK of this version/type completes
this node". -/
structure PendingCompletion where
  version : Nat
  typeURL : String
  remainingNodesResources : List (String × Option (List String))
deriving DecidableEq, Repr

/-- The mutable state of `AckingResourceMutatorWrapper` (`ack.go` lines
100-124): last stored version, per-node acked versions, pending completions
keyed by completion token, and the restoring flag.  A `Completion` pointer is
embedded as a `Nat` token. -/
structure AckState where
  version : Nat
  ackedVersions : List (String × Nat)
  pendingCompletions : List (Nat × PendingCompletion)
  restoring : Bool
deriving DecidableEq, Repr

/-- Embedding of `NewAckingResourceMutatorWrapper`: empty maps, version 0, not restoring. -/
def newAckState : AckState :=
  { version := 0, ackedVersions := [], pendingCompletions := [], restoring := false }

/-- Embedding of `MarkRestorePending` (`ack.go` lines 151-156). -/
def markRestorePending (s : AckState) : AckState :=
  { s with restoring := true }

/-- Embedding of `MarkRestoreCompleted` (`ack.go` lines 159-164). -/
def markRestoreCompleted (s : AckState) : AckState :=
  { s with restoring := false }

/-- Embedding of `DeleteNode` (`ack.go` lines 204-209): forget a node's acked version. -/
def deleteNode (s : AckState) (nodeID : String) : AckState :=
  { s with ackedVersions := aerase s.ackedVersions nodeID }

/-- The node map built by `addVersionCompletion`'s loop (`ack.go` lines
174-176): every target node mapped to the nil resource-name set. -/
def anyAckNodes (nodeIDs : List String) : List (String × Option (List String)) :=
  nodeIDs.foldl (fun m n => ainsert m n none) []

/-- Embedding of `addVersionCompletion` (`ack.go` lines 168-178): register a completion
waiting for any ACK of the version and type URL, ignoring resource names. -/
def addVersionCompletion (s : AckState) (typeURL : String) (version : Nat)
    (nodeIDs : List String) (c : Nat) : AckState :=
  { s with
    pendingCompletions :=
      ainsert s.pendingCompletions c
        { version := version, typeURL := typeURL,
          remainingNodesResources := anyAckNodes nodeIDs } }

/-- Embedding of `currentVersionAcked` (`ack.go` lines 291-303): every listed node has a
recorded acked version that is at least the current cached version. -/
def currentVersionAcked (s : AckState) (nodeIDs : List String) : Bool :=
  nodeIDs.all fun node =>
    match alookup s.ackedVersions node with
    | none => false
    | some acked => decide (s.version ≤ acked)

/-- The private `useCurrent` (`ack.go` lines 284-289): when the current
version is not fully acked, register an any-ACK completion for it.  The token
`c` embeds the fresh completion returned by `wg.AddCompletionWithCallback`. -/
def useCurrentLocked (s : AckState) (typeURL : String) (nodeIDs : List String)
    (c : Nat) : AckState :=
  if currentVersionAcked s nodeIDs then s
  else addVersionCompletion s typeURL s.version nodeIDs c

/-- The public `UseCurrent` (`ack.go` lines 183-201): waits only when the
wait group is non-nil and the wrapper is not restoring. -/
def useCurrent (s : AckState) (typeURL : String) (nodeIDs : List String)
    (hasWaitGroup : Bool) (c : Nat) : AckState :=
  if hasWaitGroup && !s.restoring then useCurrentLocked s typeURL nodeIDs c
  else s

/-- The revert closure returned by `Upsert`/`Delete`: `noop` is the literal
empty closure returned on an unchanged mutation (`ack.go` lines 237, 339);
`versioned` captures the store revert (present or nil) together with the
typeURL and target nodes of the original call (`ack.go` lines 267-281,
356-370). -/
inductive RevertFunc where
  | noop
  | versioned (hasStoreRevert : Bool) (typeURL : String) (nodeIDs : List String)
deriving DecidableEq, Repr

/-- Invoking a revert closure.  `completion` is the optional completion token
passed to it, `storeVersion` the version the store's `revert()` call returns
when the captured store revert is non-nil. -/
def applyRevert (s : AckState) (r : RevertFunc) (completion : Option Nat)
    (storeVersion : Nat) : AckState :=
  match r with
  | .noop => s
  | .versioned hasStoreRevert typeURL nodeIDs =>
      if hasStoreRevert then
        let s' := { s with version := storeVersion }
        match completion with
        | none => s'
        | some c => addVersionCompletion s' typeURL storeVersion nodeIDs c
      else s

/-- Result of `Upsert`/`Delete`: the new state, whether the process aborted on
a reused completion (`logging.Fatal`), whether `callback(nil)` was invoked
immediately, and the returned revert closure.  When `fatal` is set the process
terminates before registering anything, so `state` is the state at the abort
point. -/
structure MutateResult where
  state : AckState
  fatal : Bool
  callbackNil : Bool
  revert : RevertFunc
deriving Repr

/-- The node map built by `Upsert`'s registration loop (`ack.go` lines
256-259): every target node mapped to the singleton set of the upserted
resource name. -/
def upsertNodes (nodeIDs : List String) (resourceName : String) :
    List (String × Option (List String)) :=
  nodeIDs.foldl (fun m n => ainsert m n (some [resourceName])) []

/-- Embedding of `Upsert` (`ack.go` lines 211-282).  The wrapped mutator call
`m.mutator.Upsert` is external: its results are the parameters `mutVersion`
(always assigned to `m.version`), `mutUpdated` and `mutHasRevert`.
`hasWaitGroup` and `hasCallback` embed the nil-ness of `wg` and `callback`;
`c` is the token of the completion `wg.AddCompletionWithCallback` would
return. -/
def upsert (s : AckState) (typeURL resourceName : String) (nodeIDs : List String)
    (hasWaitGroup hasCallback : Bool) (c : Nat)
    (mutVersion : Nat) (mutUpdated mutHasRevert : Bool) : MutateResult :=
  let wait := hasWaitGroup && !s.restoring
  let s := { s with version := mutVersion }
  if !mutUpdated then
    if wait then
      { state := useCurrentLocked s typeURL nodeIDs c, fatal := false,
        callbackNil := false, revert := .noop }
    else
      { state := s, fatal := false, callbackNil := hasCallback, revert := .noop }
  else if wait then
    if (alookup s.pendingCompletions c).isSome then
      { state := s, fatal := true, callbackNil := false,
        revert := .versioned mutHasRevert typeURL nodeIDs }
    else
      { state :=
          { s with
            pendingCompletions :=
              ainsert s.pendingCompletions c
                { version := mutVersion, typeURL := typeURL,
                  remainingNodesResources := upsertNodes nodeIDs resourceName } },
        fatal := false, callbackNil := false,
        revert := .versioned mutHasRevert typeURL nodeIDs }
  else
    { state := s, fatal := false, callbackNil := hasCallback,
      revert := .versioned mutHasRevert typeURL nodeIDs }

/-- Embedding of `Delete` (`ack.go` lines 305-371), with the mutator call abstracted as in
`upsert`.  A changed delete registers an any-ACK completion via
`addVersionCompletion` after the same reuse check as `Upsert`. -/
def deleteRes (s : AckState) (typeURL resourceName : String)
    (nodeIDs : List String) (hasWaitGroup hasCallback : Bool) (c : Nat)
    (mutVersion : Nat) (mutUpdated mutHasRevert : Bool) : MutateResult :=
  let wait := hasWaitGroup && !s.restoring
  let s := { s with version := mutVersion }
  if !mutUpdated then
    if wait then
      { state := useCurrentLocked s typeURL nodeIDs c, fatal := false,
        callbackNil := false, revert := .noop }
    else
      { state := s, fatal := false, callbackNil := hasCallback, revert := .noop }
  else if wait then
    if (alookup s.pendingCompletions c).isSome then
      { state := s, fatal := true, callbackNil := false,
        revert := .versioned mutHasRevert typeURL nodeIDs }
    else
      { state := addVersionCompletion s typeURL mutVersion nodeIDs c,
        fatal := false, callbackNil := false,
        revert := .versioned mutHasRevert typeURL nodeIDs }
  else
    { state := s, fatal := false, callbackNil := hasCallback,
      revert := .versioned mutHasRevert typeURL nodeIDs }

/-- One inbound ack/nack message, the arguments of
`HandleResourceVersionAck` (`ack.go` line 374). -/
structure AckMsg where
  ackVersion : Nat
  nackVersion : Nat
  nodeIP : String
  resourceNames : List String
  typeURL : String
  detail : String
deriving DecidableEq, Repr

/-- The update of `ackedVersions` at the top of `HandleResourceVersionAck`
(`ack.go` lines 389-391): record `ackVersion` when the node has no entry yet
or its entry is strictly smaller. -/
def updateAcked (l : List (String × Nat)) (nodeIP : String) (ackVersion : Nat) :
    List (String × Nat) :=
  match alookup l nodeIP with
  | none => ainsert l nodeIP ackVersion
  | some prev => if prev < ackVersion then ainsert l nodeIP ackVersion else l

/-- What `HandleResourceVersionAck`'s loop does with one pending completion:
drop it (canceled context), complete it with the given error, or keep it with
its remaining-node map possibly shrunk. -/
inductive AckOutcome where
  | dropped
  | completed (err : Option ProxyError)
  | kept (p : PendingCompletion)
deriving DecidableEq, Repr

/-- The inner deletion loop `for _, name := range resourceNames {
delete(remainingResourceNames, name) }` (`ack.go` lines 412-414); deleting
from the nil map is a no-op. -/
def removeNames (rset : Option (List String)) (names : List String) :
    Option (List String) :=
  match rset with
  | none => none
  | some l => some (l.filter fun x => !names.contains x)

/-- Embedding of `len(remainingResourceNames) == 0`; the nil map has length 0. -/
def rsetEmpty (rset : Option (List String)) : Bool :=
  match rset with
  | none => true
  | some l => l.isEmpty

/-- The body of `HandleResourceVersionAck`'s loop (`ack.go` lines 395-438)
for a single pending completion whose completion token has cancellation
status `canceled`. -/
def processPending (msg : AckMsg) (canceled : Bool) (p : PendingCompletion) :
    AckOutcome :=
  if canceled then .dropped
  else if p.typeURL = msg.typeURL && p.version ≤ msg.nackVersion then
    match alookup p.remainingNodesResources msg.nodeIP with
    | none => .kept p
    | some rset =>
      let rset' := removeNames rset msg.resourceNames
      let nodes' :=
        if rsetEmpty rset' then aerase p.remainingNodesResources msg.nodeIP
        else ainsert p.remainingNodesResources msg.nodeIP rset'
      if nodes'.isEmpty then
        .completed
          (if p.version ≤ msg.ackVersion then none
           else some { err := .nackReceived, detail := msg.detail })
      else .kept { p with remainingNodesResources := nodes' }
  else .kept p

/-- The entry a loop iteration contributes to `remainingCompletions`. -/
def keepOf (e : Nat × AckOutcome) : Option (Nat × PendingCompletion) :=
  match e.2 with
  | .kept p => some (e.1, p)
  | _ => none

/-- The `comp.Complete(...)` call a loop iteration performs, if any, as the
completed token paired with the error passed (`none` embeds `nil`). -/
def eventOf (e : Nat × AckOutcome) : Option (Nat × Option ProxyError) :=
  match e.2 with
  | .completed err => some (e.1, err)
  | _ => none

/-- Embedding of `HandleResourceVersionAck` (`ack.go` lines 374-441).  `canceled c` embeds
`comp.Err() != nil` for the completion with token `c`.  Returns the new state
together with the list of `Complete` calls performed, each a token paired with
the error passed (`none` for a successful ACK). -/
def handleResourceVersionAck (s : AckState) (canceled : Nat → Bool)
    (msg : AckMsg) : AckState × List (Nat × Option ProxyError) :=
  let results := s.pendingCompletions.map fun e =>
    (e.1, processPending msg (canceled e.1) e.2)
  ({ s with
     ackedVersions := updateAcked s.ackedVersions msg.nodeIP msg.ackVersion,
     pendingCompletions := results.filterMap keepOf },
   results.filterMap eventOf)

/-- Folding a sequence of inbound messages through the ack handler,
collecting every `Complete` call performed along the way. -/
def handleSeq (s : AckState) (canceled : Nat → Bool) :
    List AckMsg → AckState × List (Nat × Option ProxyError)
  | [] => (s, [])
  | msg :: rest =>
      let r := handleResourceVersionAck s canceled msg
      let r' := handleSeq r.1 canceled rest
      (r'.1, r.2 ++ r'.2)


/-! ### Basic lemmas about the map embedding and the ack handler -/

theorem alookup_ainsert {κ α : Type} [DecidableEq κ] (l : List (κ × α))
    (k : κ) (v : α) (k' : κ) :
    alookup (ainsert l k v) k' = if k = k' then some v else alookup l k' := by
  induction l with
  | nil => simp [ainsert, alookup]
  | cons hd tl ih =>
    obtain ⟨k₀, v₀⟩ := hd
    simp only [ainsert]
    by_cases h : k₀ = k
    · subst h
      simp only [if_pos rfl, alookup]
      by_cases h' : k₀ = k' <;> simp [h']
    · simp only [if_neg h, alookup, ih]
      by_cases h'' : k = k'
      · subst h''
        simp [h]
      · by_cases h' : k₀ = k' <;> simp [h', h'']

theorem mem_handle_events_iff (s : AckState) (canceled : Nat → Bool)
    (msg : AckMsg) (cid : Nat) (e : Option ProxyError) :
    (cid, e) ∈ (handleResourceVersionAck s canceled msg).2 ↔
      ∃ p, (cid, p) ∈ s.pendingCompletions ∧
        processPending msg (canceled cid) p = AckOutcome.completed e := by
  unfold handleResourceVersionAck
  simp only [List.filterMap_map, List.mem_filterMap]
  constructor
  · rintro ⟨⟨k, p⟩, hmem, hev⟩
    cases ho : processPending msg (canceled k) p with
    | dropped => simp [Function.comp, eventOf, ho] at hev
    | kept q => simp [Function.comp, eventOf, ho] at hev
    | completed err =>
      have : k = cid ∧ err = e := by
        simpa [Function.comp, eventOf, ho] using hev
      exact ⟨p, by simpa [this.1] using hmem, by rw [this.1] at ho; rw [ho, this.2]⟩
  · rintro ⟨p, hmem, hp⟩
    exact ⟨(cid, p), hmem, by simp [Function.comp, eventOf, hp]⟩

theorem mem_handle_kept_iff (s : AckState) (canceled : Nat → Bool)
    (msg : AckMsg) (cid : Nat) (p' : PendingCompletion) :
    (cid, p') ∈ (handleResourceVersionAck s canceled msg).1.pendingCompletions ↔
      ∃ p, (cid, p) ∈ s.pendingCompletions ∧
        processPending msg (canceled cid) p = AckOutcome.kept p' := by
  unfold handleResourceVersionAck
  simp only [List.filterMap_map, List.mem_filterMap]
  constructor
  · rintro ⟨⟨k, p⟩, hmem, hkeep⟩
    cases ho : processPending msg (canceled k) p with
    | dropped => simp [Function.comp, keepOf, ho] at hkeep
    | completed err => simp [Function.comp, keepOf, ho] at hkeep
    | kept q =>
      have : k = cid ∧ q = p' := by
        simpa [Function.comp, keepOf, ho] using hkeep
      exact ⟨p, by simpa [this.1] using hmem, by rw [this.1] at ho; rw [ho, this.2]⟩
  · rintro ⟨p, hmem, hp⟩
    exact ⟨(cid, p), hmem, by simp [Function.comp, keepOf, hp]⟩

theorem handle_ackedVersions (s : AckState) (canceled : Nat → Bool)
    (msg : AckMsg) :
    (handleResourceVersionAck s canceled msg).1.ackedVersions =
      updateAcked s.ackedVersions msg.nodeIP msg.ackVersion := rfl

theorem ainsert_ne_nil {κ α : Type} [DecidableEq κ] (l : List (κ × α))
    (k : κ) (v : α) : ainsert l k v ≠ [] := by
  cases l with
  | nil => simp [ainsert]
  | cons hd tl =>
    obtain ⟨k₀, v₀⟩ := hd
    by_cases h : k₀ = k <;> simp [ainsert, h]

theorem aerase_eq_nil_iff {κ α : Type} [DecidableEq κ] (l : List (κ × α))
    (k : κ) (v : α) (h : alookup l k = some v) :
    aerase l k = [] ↔ l = [(k, v)] := by
  cases l with
  | nil => simp [alookup] at h
  | cons hd tl =>
    obtain ⟨k₀, v₀⟩ := hd
    by_cases hk : k₀ = k
    · subst hk
      simp [alookup] at h
      subst h
      simp [aerase]
    · simp only [alookup, if_neg hk] at h
      simp only [aerase, if_neg hk]
      constructor
      · intro hc
        simp at hc
      · intro hc
        simp only [List.cons.injEq] at hc
        exact absurd (congrArg Prod.fst hc.1) hk
    
theorem alist_value_unique {κ α : Type} [DecidableEq κ] {l : List (κ × α)}
    (h : (l.map Prod.fst).Nodup) {k : κ} {v v' : α}
    (h1 : (k, v) ∈ l) (h2 : (k, v') ∈ l) : v = v' := by
  induction l with
  | nil => simp at h1
  | cons hd tl ih =>
    obtain ⟨k₀, v₀⟩ := hd
    simp only [List.map_cons, List.nodup_cons] at h
    obtain ⟨hh1, hh2⟩ := h
    rcases List.mem_cons.mp h1 with h1h | h1t <;>
      rcases List.mem_cons.mp h2 with h2h | h2t
    · rw [Prod.mk.injEq] at h1h h2h
      exact h1h.2.trans h2h.2.symm
    · rw [Prod.mk.injEq] at h1h
      exact absurd (List.mem_map.mpr ⟨(k, v'), h2t, h1h.1⟩) hh1
    · rw [Prod.mk.injEq] at h2h
      exact absurd (List.mem_map.mpr ⟨(k, v), h1t, h2h.1⟩) hh1
    · exact ih hh2 h1t h2t

theorem processPending_completed_iff (msg : AckMsg) (p : PendingCompletion)
    (e : Option ProxyError) :
    processPending msg false p = AckOutcome.completed e ↔
      p.typeURL = msg.typeURL ∧ p.version ≤ msg.nackVersion ∧
        ∃ rset, p.remainingNodesResources = [(msg.nodeIP, rset)] ∧
          rsetEmpty (removeNames rset msg.resourceNames) = true ∧
          e = (if p.version ≤ msg.ackVersion then none
               else some { err := BaseErr.nackReceived, detail := msg.detail }) := by
  by_cases ht : p.typeURL = msg.typeURL
  · by_cases hn : p.version ≤ msg.nackVersion
    · cases hl : alookup p.remainingNodesResources msg.nodeIP with
      | none =>
        simp [processPending, ht, hn, hl]
        rintro rset hr
        rw [hr] at hl
        simp [alookup] at hl
      | some rset =>
        by_cases he : rsetEmpty (removeNames rset msg.resourceNames) = true
        · by_cases hz : aerase p.remainingNodesResources msg.nodeIP = []
          · have hsing := (aerase_eq_nil_iff _ _ _ hl).mp hz
            simp [processPending, ht, hn, hl, he, hz]
            constructor
            · intro hx
              exact ⟨rset, hsing, he, hx.symm⟩
            · rintro ⟨rset', hr', -, hce⟩
              exact hce.symm
          · have hne : (aerase p.remainingNodesResources msg.nodeIP).isEmpty
                = false := by
              cases hcase : aerase p.remainingNodesResources msg.nodeIP with
              | nil => exact absurd hcase hz
              | cons a t => rfl
            simp [processPending, ht, hn, hl, he, hne]
            intro x hx h1 h2
            rw [hx] at hz
            exact hz (by simp [aerase])
        · have hne : (ainsert p.remainingNodesResources msg.nodeIP
              (removeNames rset msg.resourceNames)).isEmpty = false := by
            cases hcase : ainsert p.remainingNodesResources msg.nodeIP
                (removeNames rset msg.resourceNames) with
            | nil => exact absurd hcase (ainsert_ne_nil _ _ _)
            | cons a t => rfl
          simp [processPending, ht, hn, hl, he, hne]
          intro x hx h1 h2
          rw [hx] at hl
          simp [alookup] at hl
          exact he (hl ▸ h1)
    · simp [processPending, ht, hn]
  · simp [processPending, ht]

theorem alookup_eq_none_iff {κ α : Type} [DecidableEq κ] (l : List (κ × α))
    (k : κ) : alookup l k = none ↔ ∀ v, (k, v) ∉ l := by
  induction l with
  | nil => simp [alookup]
  | cons hd tl ih =>
    obtain ⟨k₀, v₀⟩ := hd
    by_cases h : k₀ = k
    · subst h
      simp [alookup]
      exact ⟨v₀, fun hc => absurd rfl hc⟩
    · simp only [alookup, if_neg h, ih, List.mem_cons]
      constructor
      · intro hall v hv
        rcases hv with hv | hv
        · exact h (congrArg Prod.fst hv).symm
        · exact hall v hv
      · intro hall v hv
        exact hall v (Or.inr hv)

theorem mem_ainsert_self {κ α : Type} [DecidableEq κ] (l : List (κ × α))
    (k : κ) (v : α) : (k, v) ∈ ainsert l k v := by
  induction l with
  | nil => simp [ainsert]
  | cons hd tl ih =>
    obtain ⟨k₀, v₀⟩ := hd
    simp only [ainsert]
    by_cases h : k₀ = k
    · rw [if_pos h]
      exact List.mem_cons_self _ _
    · rw [if_neg h]
      exact List.mem_cons.mpr (Or.inr ih)

theorem mem_ainsert_elim {κ α : Type} [DecidableEq κ] {l : List (κ × α)}
    {k : κ} {v : α} {k' : κ} {v' : α} (h : (k', v') ∈ ainsert l k v) :
    (k' = k ∧ v' = v) ∨ (k', v') ∈ l := by
  induction l with
  | nil =>
    simp only [ainsert] at h
    have h := List.mem_singleton.mp h
    rw [Prod.mk.injEq] at h
    exact Or.inl h
  | cons hd tl ih =>
    obtain ⟨k₀, v₀⟩ := hd
    simp only [ainsert] at h
    by_cases hk : k₀ = k
    · rw [if_pos hk] at h
      rcases List.mem_cons.mp h with h | h
      · rw [Prod.mk.injEq] at h
        exact Or.inl h
      · exact Or.inr (List.mem_cons.mpr (Or.inr h))
    · rw [if_neg hk] at h
      rcases List.mem_cons.mp h with h | h
      · exact Or.inr (List.mem_cons.mpr (Or.inl h))
      · rcases ih h with h' | h'
        · exact Or.inl h'
        · exact Or.inr (List.mem_cons.mpr (Or.inr h'))

theorem updateAcked_mono (l : List (String × Nat)) (n : String) (a : Nat)
    (node : String) (prev : Nat) (h : alookup l node = some prev) :
    ∃ v, alookup (updateAcked l n a) node = some v ∧ prev ≤ v := by
  cases hn : alookup l n with
  | none =>
    simp only [updateAcked, hn]
    rw [alookup_ainsert]
    by_cases hnode : n = node
    · subst hnode
      rw [h] at hn
      exact absurd hn (by simp)
    · rw [if_neg hnode]
      exact ⟨prev, h, le_rfl⟩
  | some prevn =>
    simp only [updateAcked, hn]
    by_cases hlt : prevn < a
    · rw [if_pos hlt, alookup_ainsert]
      by_cases hnode : n = node
      · subst hnode
        rw [h] at hn
        injection hn with hn
        exact ⟨a, by simp, by omega⟩
      · rw [if_neg hnode]
        exact ⟨prev, h, le_rfl⟩
    · rw [if_neg hlt]
      exact ⟨prev, h, le_rfl⟩

theorem updateAcked_stale (l : List (String × Nat)) (n : String) (a : Nat)
    (prev : Nat) (h : alookup l n = some prev) (hle : a ≤ prev) :
    updateAcked l n a = l := by
  simp only [updateAcked, h]
  rw [if_neg (by omega : ¬prev < a)]

theorem updateAcked_fresh (l : List (String × Nat)) (n : String) (a : Nat)
    (h : alookup l n = none) :
    alookup (updateAcked l n a) n = some a := by
  simp only [updateAcked, h]
  rw [alookup_ainsert, if_pos rfl]

theorem alookup_foldl_ainsert {κ α : Type} [DecidableEq κ] (v : α)
    (ns : List κ) (l₀ : List (κ × α)) (n : κ)
    (h : n ∈ ns ∨ alookup l₀ n = some v) :
    alookup (ns.foldl (fun m x => ainsert m x v) l₀) n = some v := by
  induction ns generalizing l₀ with
  | nil =>
    rcases h with h | h
    · simp at h
    · simpa using h
  | cons x t ih =>
    simp only [List.foldl_cons]
    apply ih
    rcases h with h | h
    · rcases List.mem_cons.mp h with rfl | h
      · exact Or.inr (by rw [alookup_ainsert, if_pos rfl])
      · exact Or.inl h
    · by_cases hx : x = n
      · subst hx
        exact Or.inr (by rw [alookup_ainsert, if_pos rfl])
      · exact Or.inr (by rw [alookup_ainsert, if_neg hx]; exact h)

theorem handleSeq_acked_mono (msgs : List AckMsg) :
    ∀ (s : AckState) (canceled : Nat → Bool) (node : String) (prev : Nat),
      alookup s.ackedVersions node = some prev →
      ∃ v, alookup (handleSeq s canceled msgs).1.ackedVersions node = some v ∧
        prev ≤ v := by
  induction msgs with
  | nil => exact fun s canceled node prev h => ⟨prev, h, le_rfl⟩
  | cons msg rest ih =>
    intro s canceled node prev h
    obtain ⟨v, hv, hle⟩ :=
      updateAcked_mono s.ackedVersions msg.nodeIP msg.ackVersion node prev h
    obtain ⟨v', hv', hle'⟩ :=
      ih (handleResourceVersionAck s canceled msg).1 canceled node v hv
    exact ⟨v', hv', le_trans hle hle'⟩

theorem processPending_canceled (msg : AckMsg) (p : PendingCompletion) :
    processPending msg true p = AckOutcome.dropped := rfl

theorem processPending_empty_remaining (msg : AckMsg) (p : PendingCompletion)
    (h : p.remainingNodesResources = []) :
    processPending msg false p = AckOutcome.kept p := by
  simp [processPending, h, alookup, ite_self]

theorem handleSeq_no_key (msgs : List AckMsg) :
    ∀ (s : AckState) (canceled : Nat → Bool) (cid : Nat),
      (∀ p, (cid, p) ∉ s.pendingCompletions) →
      (∀ p, (cid, p) ∉ (handleSeq s canceled msgs).1.pendingCompletions) ∧
      (∀ e, (cid, e) ∉ (handleSeq s canceled msgs).2) := by
  induction msgs with
  | nil => exact fun s canceled cid h => ⟨h, by simp [handleSeq]⟩
  | cons msg rest ih =>
    intro s canceled cid h
    have hstep : ∀ p, (cid, p) ∉
        (handleResourceVersionAck s canceled msg).1.pendingCompletions := by
      intro p hp
      obtain ⟨q, hq, -⟩ := (mem_handle_kept_iff s canceled msg cid p).mp hp
      exact h q hq
    have hstepev : ∀ e, (cid, e) ∉ (handleResourceVersionAck s canceled msg).2 := by
      intro e he
      obtain ⟨q, hq, -⟩ := (mem_handle_events_iff s canceled msg cid e).mp he
      exact h q hq
    obtain ⟨h1, h2⟩ := ih (handleResourceVersionAck s canceled msg).1 canceled cid hstep
    refine ⟨h1, fun e he => ?_⟩
    simp only [handleSeq, List.mem_append] at he
    rcases he with he | he
    · exact hstepev e he
    · exact h2 e he

theorem handleSeq_only_key_kept (msgs : List AckMsg) :
    ∀ (s : AckState) (canceled : Nat → Bool) (cid : Nat) (p : PendingCompletion),
      (∀ q, (cid, q) ∈ s.pendingCompletions → q = p) →
      (cid, p) ∈ s.pendingCompletions →
      canceled cid = false →
      p.remainingNodesResources = [] →
      ((cid, p) ∈ (handleSeq s canceled msgs).1.pendingCompletions ∧
       (∀ q, (cid, q) ∈ (handleSeq s canceled msgs).1.pendingCompletions → q = p) ∧
       (∀ e, (cid, e) ∉ (handleSeq s canceled msgs).2)) := by
  induction msgs with
  | nil =>
    intro s canceled cid p honly hmem hc hr
    exact ⟨hmem, honly, by simp [handleSeq]⟩
  | cons msg rest ih =>
    intro s canceled cid p honly hmem hc hr
    have hkept : (cid, p) ∈
        (handleResourceVersionAck s canceled msg).1.pendingCompletions :=
      (mem_handle_kept_iff s canceled msg cid p).mpr
        ⟨p, hmem, by rw [hc]; exact processPending_empty_remaining msg p hr⟩
    have honly' : ∀ q, (cid, q) ∈
        (handleResourceVersionAck s canceled msg).1.pendingCompletions → q = p := by
      intro q hq
      obtain ⟨q₀, hq₀, hproc⟩ := (mem_handle_kept_iff s canceled msg cid q).mp hq
      have := honly q₀ hq₀
      subst this
      rw [hc, processPending_empty_remaining msg q₀ hr] at hproc
      injection hproc with hproc
      exact hproc.symm
    have hstepev : ∀ e, (cid, e) ∉ (handleResourceVersionAck s canceled msg).2 := by
      intro e he
      obtain ⟨q₀, hq₀, hproc⟩ := (mem_handle_events_iff s canceled msg cid e).mp he
      have := honly q₀ hq₀
      subst this
      rw [hc, processPending_empty_remaining msg q₀ hr] at hproc
      exact absurd hproc (by simp)
    obtain ⟨h1, h2, h3⟩ := ih (handleResourceVersionAck s canceled msg).1 canceled
      cid p honly' hkept hc hr
    refine ⟨h1, h2, fun e he => ?_⟩
    simp only [handleSeq, List.mem_append] at he
    rcases he with he | he
    · exact hstepev e he
    · exact h3 e he

theorem handle_canceled_drop (s : AckState) (canceled : Nat → Bool)
    (msg : AckMsg) (cid : Nat) (hc : canceled cid = true) :
    (∀ q, (cid, q) ∉
      (handleResourceVersionAck s canceled msg).1.pendingCompletions) ∧
    (∀ e, (cid, e) ∉ (handleResourceVersionAck s canceled msg).2) := by
  constructor
  · intro q hq
    obtain ⟨q₀, hq₀, hproc⟩ := (mem_handle_kept_iff s canceled msg cid q).mp hq
    rw [hc, processPending_canceled] at hproc
    exact absurd hproc (by simp)
  · intro e he
    obtain ⟨q₀, hq₀, hproc⟩ := (mem_handle_events_iff s canceled msg cid e).mp he
    rw [hc, processPending_canceled] at hproc
    exact absurd hproc (by simp)

/-! ### Claim theorems -/

/-- C3: for every node, the recorded `ackedVersions` entry is monotonically
non-decreasing across any sequence of `HandleResourceVersionAck` calls; a
call whose `ackVersion` is at most the previously recorded value leaves the
record unchanged, and a node with no prior record gets an entry equal to the
message's `ackVersion` (including `ackVersion` 0 on first contact). -/
theorem ackedVersions_monotonic :
    (∀ (s : AckState) (canceled : Nat → Bool) (msgs : List AckMsg)
        (node : String) (prev : Nat),
        alookup s.ackedVersions node = some prev →
        ∃ v, alookup (handleSeq s canceled msgs).1.ackedVersions node = some v ∧
          prev ≤ v) ∧
    (∀ (s : AckState) (canceled : Nat → Bool) (msg : AckMsg) (prev : Nat),
        alookup s.ackedVersions msg.nodeIP = some prev →
        msg.ackVersion ≤ prev →
        (handleResourceVersionAck s canceled msg).1.ackedVersions =
          s.ackedVersions) ∧
    (∀ (s : AckState) (canceled : Nat → Bool) (msg : AckMsg),
        alookup s.ackedVersions msg.nodeIP = none →
        alookup (handleResourceVersionAck s canceled msg).1.ackedVersions
          msg.nodeIP = some msg.ackVersion) := by
  refine ⟨fun s c msgs node prev h => handleSeq_acked_mono msgs s c node prev h,
    fun s c msg prev h hle => ?_, fun s c msg h => ?_⟩
  · rw [handle_ackedVersions]
    exact updateAcked_stale s.ackedVersions msg.nodeIP msg.ackVersion prev h hle
  · rw [handle_ackedVersions]
    exact updateAcked_fresh s.ackedVersions msg.nodeIP msg.ackVersion h

/-- Witness for C3 at concrete inputs: a recorded version 3 stays at least 3
after a stale ack, a stale ack leaves the record literally unchanged, and an
unknown node gets an entry equal to the message's `ackVersion` 0. -/
theorem ackedVersions_monotonic_witness :
    (∃ v, alookup (handleSeq { newAckState with ackedVersions := [("n", 3)] }
        (fun _ => false) [(⟨1, 1, "n", [], "t", ""⟩ : AckMsg)]).1.ackedVersions
        "n" = some v ∧ 3 ≤ v) ∧
    ((handleResourceVersionAck { newAckState with ackedVersions := [("n", 3)] }
        (fun _ => false) (⟨1, 1, "n", [], "t", ""⟩ : AckMsg)).1.ackedVersions =
      ({ newAckState with ackedVersions := [("n", 3)] } : AckState).ackedVersions) ∧
    (alookup (handleResourceVersionAck newAckState (fun _ => false)
        (⟨0, 0, "n", [], "t", ""⟩ : AckMsg)).1.ackedVersions "n" = some 0) :=
  ⟨ackedVersions_monotonic.1 _ _ _ "n" 3 (by decide),
   ackedVersions_monotonic.2.1 _ _ _ 3 (by decide) (by decide),
   ackedVersions_monotonic.2.2 _ _ _ (by decide)⟩

/-- C4 counterexample: a canceled pending completion of typeURL `"cluster"`
is dropped from `pendingCompletions` by the very next
`HandleResourceVersionAck` call even though that call's typeURL is
`"listener"`, refuting the claim that the completion's memory is retained
until an ack of matching typeURL arrives; no completion call is made. -/
theorem canceled_completion_dropped_by_unrelated_typeURL :
    ((handleResourceVersionAck
        { newAckState with
          pendingCompletions := [(7, (⟨5, "cluster", [("10.0.0.1", none)]⟩ : PendingCompletion))] }
        (fun _ => true)
        (⟨1, 1, "10.0.0.9", [], "listener", ""⟩ : AckMsg)).1.pendingCompletions = [] ∧
      (handleResourceVersionAck
        { newAckState with
          pendingCompletions := [(7, (⟨5, "cluster", [("10.0.0.1", none)]⟩ : PendingCompletion))] }
        (fun _ => true)
        (⟨1, 1, "10.0.0.9", [], "listener", ""⟩ : AckMsg)).2 = []) ∧
    ("listener" : String) ≠ "cluster" := by decide

/-- C4 (amended): a pending completion whose context is canceled or timed out
is never completed by the ack tracker, and is silently dropped from
`pendingCompletions` the next time `HandleResourceVersionAck` runs — for any
incoming message, regardless of its typeURL (not only on an ack of matching
typeURL). -/
theorem canceled_completion_dropped_next_ack :
    ∀ (s : AckState) (canceled : Nat → Bool) (msg : AckMsg) (cid : Nat)
      (p : PendingCompletion),
      (cid, p) ∈ s.pendingCompletions →
      canceled cid = true →
      (∀ q, (cid, q) ∉
        (handleResourceVersionAck s canceled msg).1.pendingCompletions) ∧
      (∀ e, (cid, e) ∉ (handleResourceVersionAck s canceled msg).2) :=
  fun s canceled msg cid _p _hmem hc => handle_canceled_drop s canceled msg cid hc

/-- Witness for C4 (amended) at a concrete canceled pending completion and a
concrete message. -/
theorem canceled_completion_dropped_next_ack_witness :
    (∀ q, (7, q) ∉
      (handleResourceVersionAck
        { newAckState with
          pendingCompletions := [(7, (⟨5, "cluster", [("10.0.0.1", none)]⟩ : PendingCompletion))] }
        (fun _ => true)
        (⟨1, 1, "10.0.0.9", [], "listener", ""⟩ : AckMsg)).1.pendingCompletions) ∧
    (∀ e, (7, e) ∉
      (handleResourceVersionAck
        { newAckState with
          pendingCompletions := [(7, (⟨5, "cluster", [("10.0.0.1", none)]⟩ : PendingCompletion))] }
        (fun _ => true)
        (⟨1, 1, "10.0.0.9", [], "listener", ""⟩ : AckMsg)).2) :=
  canceled_completion_dropped_next_ack _ _ _ 7
    (⟨5, "cluster", [("10.0.0.1", none)]⟩ : PendingCompletion)
    (by decide) rfl

/-- C5: while the wrapper is restoring, `Upsert` and `Delete` called with a
non-nil `WaitGroup` register no `PendingCompletion` and invoke their callback
(if any) immediately with nil error, never abort, and `UseCurrent` with a
non-nil `WaitGroup` is a no-op; `pendingCompletions` is unchanged by all such
calls. -/
theorem restoring_bypass :
    ∀ (s : AckState) (typeURL resourceName : String) (nodeIDs : List String)
      (hasCallback : Bool) (c : Nat) (mutVersion : Nat)
      (mutUpdated mutHasRevert : Bool),
      s.restoring = true →
      ((upsert s typeURL resourceName nodeIDs true hasCallback c mutVersion
          mutUpdated mutHasRevert).state.pendingCompletions =
          s.pendingCompletions ∧
        (upsert s typeURL resourceName nodeIDs true hasCallback c mutVersion
          mutUpdated mutHasRevert).callbackNil = hasCallback ∧
        (upsert s typeURL resourceName nodeIDs true hasCallback c mutVersion
          mutUpdated mutHasRevert).fatal = false) ∧
      ((deleteRes s typeURL resourceName nodeIDs true hasCallback c mutVersion
          mutUpdated mutHasRevert).state.pendingCompletions =
          s.pendingCompletions ∧
        (deleteRes s typeURL resourceName nodeIDs true hasCallback c mutVersion
          mutUpdated mutHasRevert).callbackNil = hasCallback ∧
        (deleteRes s typeURL resourceName nodeIDs true hasCallback c mutVersion
          mutUpdated mutHasRevert).fatal = false) ∧
      useCurrent s typeURL nodeIDs true c = s := by
  intro s typeURL resourceName nodeIDs hasCallback c mutVersion mutUpdated
    mutHasRevert h
  refine ⟨?_, ?_, ?_⟩
  · cases mutUpdated <;> simp [upsert, h]
  · cases mutUpdated <;> simp [deleteRes, h]
  · simp [useCurrent, h]

/-- Witness for C5 at concrete inputs (restoring state, changed upsert). -/
theorem restoring_bypass_witness :
    ((upsert (markRestorePending newAckState) "t" "r" ["n"] true true 1 4 true
        true).state.pendingCompletions =
        (markRestorePending newAckState).pendingCompletions ∧
      (upsert (markRestorePending newAckState) "t" "r" ["n"] true true 1 4 true
        true).callbackNil = true ∧
      (upsert (markRestorePending newAckState) "t" "r" ["n"] true true 1 4 true
        true).fatal = false) ∧
    ((deleteRes (markRestorePending newAckState) "t" "r" ["n"] true true 1 4
        true true).state.pendingCompletions =
        (markRestorePending newAckState).pendingCompletions ∧
      (deleteRes (markRestorePending newAckState) "t" "r" ["n"] true true 1 4
        true true).callbackNil = true ∧
      (deleteRes (markRestorePending newAckState) "t" "r" ["n"] true true 1 4
        true true).fatal = false) ∧
    useCurrent (markRestorePending newAckState) "t" ["n"] true 1 =
      markRestorePending newAckState :=
  restoring_bypass (markRestorePending newAckState) "t" "r" ["n"] true 1 4
    true true rfl

/-- C6: if the completion returned by the wait group for a changed `Upsert`
or a changed `Delete` that requested waiting is already a key of
`pendingCompletions`, the process aborts via `logging.Fatal` and nothing is
registered. -/
theorem completion_reuse_fatal :
    ∀ (s : AckState) (typeURL resourceName : String) (nodeIDs : List String)
      (hasCallback : Bool) (c : Nat) (mutVersion : Nat) (mutHasRevert : Bool),
      s.restoring = false →
      (alookup s.pendingCompletions c).isSome = true →
      ((upsert s typeURL resourceName nodeIDs true hasCallback c mutVersion
          true mutHasRevert).fatal = true ∧
        (upsert s typeURL resourceName nodeIDs true hasCallback c mutVersion
          true mutHasRevert).state.pendingCompletions =
          s.pendingCompletions) ∧
      ((deleteRes s typeURL resourceName nodeIDs true hasCallback c mutVersion
          true mutHasRevert).fatal = true ∧
        (deleteRes s typeURL resourceName nodeIDs true hasCallback c mutVersion
          true mutHasRevert).state.pendingCompletions =
          s.pendingCompletions) := by
  intro s typeURL resourceName nodeIDs hasCallback c mutVersion mutHasRevert
    h1 h2
  constructor <;> simp [upsert, deleteRes, h1, h2]

/-- Witness for C6: reusing the already-pending completion token 1 makes both
a changed upsert and a changed delete abort. -/
theorem completion_reuse_fatal_witness :
    ((upsert
        { newAckState with
          pendingCompletions := [(1, (⟨1, "t", []⟩ : PendingCompletion))] }
        "t" "r" ["n"] true false 1 4 true true).fatal = true ∧
      (upsert
        { newAckState with
          pendingCompletions := [(1, (⟨1, "t", []⟩ : PendingCompletion))] }
        "t" "r" ["n"] true false 1 4 true true).state.pendingCompletions =
        [(1, (⟨1, "t", []⟩ : PendingCompletion))]) ∧
    ((deleteRes
        { newAckState with
          pendingCompletions := [(1, (⟨1, "t", []⟩ : PendingCompletion))] }
        "t" "r" ["n"] true false 1 4 true true).fatal = true ∧
      (deleteRes
        { newAckState with
          pendingCompletions := [(1, (⟨1, "t", []⟩ : PendingCompletion))] }
        "t" "r" ["n"] true false 1 4 true true).state.pendingCompletions =
        [(1, (⟨1, "t", []⟩ : PendingCompletion))]) :=
  completion_reuse_fatal
    { newAckState with
      pendingCompletions := [(1, (⟨1, "t", []⟩ : PendingCompletion))] }
    "t" "r" ["n"] false 1 4 true rfl rfl
/-- C7: `UseCurrent` registers nothing when the wait group is nil, when the
wrapper is restoring, or when every targeted node's recorded acked version is
at least the current version; otherwise (some targeted node has no recorded
entry or a recorded acked version below the current version) it registers
exactly one `PendingCompletion` for the current version and typeURL whose
remaining-resources entry for every targeted node is nil (any-ack mode). -/
theorem useCurrent_registration :
    ∀ (s : AckState) (typeURL : String) (nodeIDs : List String) (c : Nat),
      (useCurrent s typeURL nodeIDs false c = s) ∧
      (s.restoring = true → useCurrent s typeURL nodeIDs true c = s) ∧
      (s.restoring = false → currentVersionAcked s nodeIDs = true →
        useCurrent s typeURL nodeIDs true c = s) ∧
      (s.restoring = false → currentVersionAcked s nodeIDs = false →
        useCurrent s typeURL nodeIDs true c =
          { s with
            pendingCompletions := ainsert s.pendingCompletions c
              { version := s.version, typeURL := typeURL,
                remainingNodesResources := anyAckNodes nodeIDs } } ∧
        (∀ n ∈ nodeIDs, alookup (anyAckNodes nodeIDs) n = some none)) ∧
      (currentVersionAcked s nodeIDs = false ↔
        ∃ n ∈ nodeIDs, alookup s.ackedVersions n = none ∨
          ∃ a, alookup s.ackedVersions n = some a ∧ a < s.version) := by
  intro s typeURL nodeIDs c
  have htrue : currentVersionAcked s nodeIDs = true ↔
      ∀ n ∈ nodeIDs, ∃ a, alookup s.ackedVersions n = some a ∧
        s.version ≤ a := by
    simp only [currentVersionAcked, List.all_eq_true]
    constructor
    · intro hall n hn
      have hx := hall n hn
      cases ha : alookup s.ackedVersions n with
      | none => rw [ha] at hx; simp at hx
      | some a =>
        rw [ha] at hx
        simp at hx
        exact ⟨a, rfl, hx⟩
    · intro hall n hn
      obtain ⟨a, ha, hle⟩ := hall n hn
      rw [ha]
      simpa using hle
  refine ⟨by simp [useCurrent], fun h => by simp [useCurrent, h],
    fun h h2 => by simp [useCurrent, useCurrentLocked, h, h2],
    fun h h2 => ⟨by simp [useCurrent, useCurrentLocked, addVersionCompletion,
      h, h2], fun n hn => alookup_foldl_ainsert none nodeIDs [] n (Or.inl hn)⟩,
    ?_⟩
  constructor
  · intro hf
    by_contra hnex
    push_neg at hnex
    have hall : ∀ n ∈ nodeIDs, ∃ a, alookup s.ackedVersions n = some a ∧
        s.version ≤ a := by
      intro n hn
      have hx := hnex n hn
      cases ha : alookup s.ackedVersions n with
      | none => exact absurd ha hx.1
      | some a => exact ⟨a, rfl, hx.2 a ha⟩
    rw [htrue.mpr hall] at hf
    exact absurd hf (by simp)
  · intro hex
    cases hcv : currentVersionAcked s nodeIDs with
    | false => rfl
    | true =>
      exfalso
      obtain ⟨n, hn, hcase⟩ := hex
      obtain ⟨a, ha, hle⟩ := htrue.mp hcv n hn
      rcases hcase with hnone | ⟨a', ha', hlt⟩
      · rw [ha] at hnone
        exact absurd hnone (by simp)
      · rw [ha] at ha'
        injection ha' with ha'
        omega

/-- Witness for C7: a node with no recorded entry forces registration of a
single any-ack `PendingCompletion` for the current version. -/
theorem useCurrent_registration_witness :
    (useCurrent { newAckState with version := 2 } "t" ["n"] true 5 =
      { version := 2, ackedVersions := [],
        pendingCompletions := ainsert [] 5
          { version := 2, typeURL := "t",
            remainingNodesResources := anyAckNodes ["n"] },
        restoring := false } ∧
      (∀ n ∈ (["n"] : List String), alookup (anyAckNodes ["n"]) n =
        some none)) :=
  (useCurrent_registration { newAckState with version := 2 } "t" ["n"]
    5).2.2.2.1 rfl rfl

/-- C8: the revert closure returned by a changed `Upsert` carries the store's
revert; invoking it with a non-nil completion records the version returned by
the store's revert call and registers a `PendingCompletion` for that version
and typeURL whose per-node resource-name set is nil for every original target
node — an any-ack completion, not one precise to the reverted resource. -/
theorem upsert_revert_any_ack :
    ∀ (s : AckState) (typeURL resourceName : String) (nodeIDs : List String)
      (hasWaitGroup hasCallback : Bool) (c : Nat) (mutVersion : Nat),
      ((upsert s typeURL resourceName nodeIDs hasWaitGroup hasCallback c
          mutVersion true true).revert =
        RevertFunc.versioned true typeURL nodeIDs) ∧
      (∀ (s' : AckState) (cid : Nat) (storeVersion : Nat),
        applyRevert s' (RevertFunc.versioned true typeURL nodeIDs) (some cid)
            storeVersion =
          { s' with
            version := storeVersion,
            pendingCompletions := ainsert s'.pendingCompletions cid
              { version := storeVersion, typeURL := typeURL,
                remainingNodesResources := anyAckNodes nodeIDs } }) ∧
      (∀ n ∈ nodeIDs, alookup (anyAckNodes nodeIDs) n = some none) := by
  intro s typeURL resourceName nodeIDs hasWaitGroup hasCallback c mutVersion
  refine ⟨?_, fun s' cid storeVersion => rfl, fun n hn =>
    alookup_foldl_ainsert none nodeIDs [] n (Or.inl hn)⟩
  cases hw : hasWaitGroup && !s.restoring with
  | false => simp [upsert, hw]
  | true =>
    cases hr : (alookup s.pendingCompletions c).isSome with
    | false => simp [upsert, hw, hr]
    | true => simp [upsert, hw, hr]

/-- Witness for C8 at concrete inputs: reverting a changed upsert of
`"r"` to nodes `["n"]` registers an any-ack completion for the reverted
version 3. -/
theorem upsert_revert_any_ack_witness :
    ((upsert newAckState "t" "r" ["n"] true false 9 4 true true).revert =
      RevertFunc.versioned true "t" ["n"]) ∧
    (applyRevert newAckState (RevertFunc.versioned true "t" ["n"]) (some 9)
        3 =
      { newAckState with
        version := 3,
        pendingCompletions := ainsert newAckState.pendingCompletions 9
          { version := 3, typeURL := "t",
            remainingNodesResources := anyAckNodes ["n"] } }) ∧
    (∀ n ∈ (["n"] : List String), alookup (anyAckNodes ["n"]) n = some none) :=
  ⟨(upsert_revert_any_ack newAckState "t" "r" ["n"] true false 9 4).1,
   (upsert_revert_any_ack newAckState "t" "r" ["n"] true false 9 4).2.1
     newAckState 9 3,
   fun n hn => (upsert_revert_any_ack newAckState "t" "r" ["n"] true false 9
     4).2.2 n hn⟩

/-- C10: when `Upsert` or `Delete` finds no actual change (the wrapped
mutator reports `updated = false`), the returned revert closure is the empty
closure: invoking it, even with a non-nil completion, leaves the state
(version and `pendingCompletions`) unchanged and never touches the store's
revert, and a completion that is not a key of `pendingCompletions` is never
completed by any sequence of acks nor ever becomes a key. -/
theorem unchanged_mutation_revert_noop :
    ∀ (s : AckState) (typeURL resourceName : String) (nodeIDs : List String)
      (hasWaitGroup hasCallback : Bool) (c : Nat) (mutVersion : Nat)
      (mutHasRevert : Bool),
      ((upsert s typeURL resourceName nodeIDs hasWaitGroup hasCallback c
          mutVersion false mutHasRevert).revert = RevertFunc.noop) ∧
      ((deleteRes s typeURL resourceName nodeIDs hasWaitGroup hasCallback c
          mutVersion false mutHasRevert).revert = RevertFunc.noop) ∧
      (∀ (s' : AckState) (completion : Option Nat) (storeVersion : Nat),
        applyRevert s' RevertFunc.noop completion storeVersion = s') ∧
      (∀ (s' : AckState) (canceled : Nat → Bool) (msgs : List AckMsg)
          (cid : Nat),
        (∀ p, (cid, p) ∉ s'.pendingCompletions) →
        (∀ e, (cid, e) ∉ (handleSeq s' canceled msgs).2) ∧
        (∀ p, (cid, p) ∉
          (handleSeq s' canceled msgs).1.pendingCompletions)) := by
  intro s typeURL resourceName nodeIDs hasWaitGroup hasCallback c mutVersion
    mutHasRevert
  refine ⟨?_, ?_, fun s' completion storeVersion => rfl,
    fun s' canceled msgs cid h => ?_⟩
  · cases hw : hasWaitGroup && !s.restoring <;> simp [upsert, hw]
  · cases hw : hasWaitGroup && !s.restoring <;> simp [deleteRes, hw]
  · obtain ⟨h1, h2⟩ := handleSeq_no_key msgs s' canceled cid h
    exact ⟨h2, h1⟩

/-- Witness for C10: the completion token 3 is not tracked in the empty
state, and no ack sequence ever completes or registers it. -/
theorem unchanged_mutation_revert_noop_witness :
    (∀ e, ((3 : Nat), e) ∉
      (handleSeq newAckState (fun _ => false)
        [(⟨1, 1, "n", [], "t", ""⟩ : AckMsg)]).2) ∧
    (∀ p, ((3 : Nat), p) ∉
      (handleSeq newAckState (fun _ => false)
        [(⟨1, 1, "n", [], "t", ""⟩ : AckMsg)]).1.pendingCompletions) :=
  (unchanged_mutation_revert_noop newAckState "t" "r" [] false false 0 0
    false).2.2.2 newAckState (fun _ => false)
    [(⟨1, 1, "n", [], "t", ""⟩ : AckMsg)] 3 (by simp [newAckState])

/-- C9: a changed `Upsert` or a changed `Delete` that requests waiting with
an empty `nodeIDs` list registers a `PendingCompletion` with an empty
remaining-nodes map; no sequence of `HandleResourceVersionAck` calls ever
completes such a completion (it stays pending unchanged), and once its
context is canceled it is dropped without being completed. -/
theorem empty_nodeIDs_never_completed :
    ∀ (s : AckState) (typeURL resourceName : String) (hasCallback : Bool)
      (c : Nat) (mutVersion : Nat) (mutHasRevert : Bool),
      s.restoring = false →
      alookup s.pendingCompletions c = none →
      ((upsert s typeURL resourceName [] true hasCallback c mutVersion true
          mutHasRevert).state.pendingCompletions =
        ainsert s.pendingCompletions c
          (⟨mutVersion, typeURL, []⟩ : PendingCompletion)) ∧
      ((deleteRes s typeURL resourceName [] true hasCallback c mutVersion true
          mutHasRevert).state.pendingCompletions =
        ainsert s.pendingCompletions c
          (⟨mutVersion, typeURL, []⟩ : PendingCompletion)) ∧
      (∀ (s' : AckState) (canceled : Nat → Bool) (msgs : List AckMsg),
        s'.pendingCompletions = ainsert s.pendingCompletions c
          (⟨mutVersion, typeURL, []⟩ : PendingCompletion) →
        canceled c = false →
        ((c, (⟨mutVersion, typeURL, []⟩ : PendingCompletion)) ∈
          (handleSeq s' canceled msgs).1.pendingCompletions ∧
        (∀ e, (c, e) ∉ (handleSeq s' canceled msgs).2))) ∧
      (∀ (s' : AckState) (canceled : Nat → Bool) (msg : AckMsg),
        canceled c = true →
        (∀ q, (c, q) ∉
          (handleResourceVersionAck s' canceled msg).1.pendingCompletions) ∧
        (∀ e, (c, e) ∉ (handleResourceVersionAck s' canceled msg).2)) := by
  intro s typeURL resourceName hasCallback c mutVersion mutHasRevert h1 h2
  refine ⟨by simp [upsert, h1, h2, upsertNodes],
    by simp [deleteRes, addVersionCompletion, anyAckNodes, h1, h2],
    fun s' canceled msgs hs' hc => ?_,
    fun s' canceled msg hc => handle_canceled_drop s' canceled msg c hc⟩
  have hmem : (c, (⟨mutVersion, typeURL, []⟩ : PendingCompletion)) ∈
      s'.pendingCompletions := by
    rw [hs']
    exact mem_ainsert_self _ _ _
  have honly : ∀ q, (c, q) ∈ s'.pendingCompletions →
      q = (⟨mutVersion, typeURL, []⟩ : PendingCompletion) := by
    intro q hq
    rw [hs'] at hq
    rcases mem_ainsert_elim hq with h | h
    · exact h.2
    · exact absurd h ((alookup_eq_none_iff s.pendingCompletions c).mp h2 q)
  obtain ⟨hkeep, -, hev⟩ := handleSeq_only_key_kept msgs s' canceled c
    (⟨mutVersion, typeURL, []⟩ : PendingCompletion) honly hmem hc rfl
  exact ⟨hkeep, hev⟩

/-- Witness for C9: concrete changed upsert and changed delete targeting no
nodes both register the empty-remaining-map completion; it survives an ack
unchanged and un-completed, and is dropped un-completed once canceled. -/
theorem empty_nodeIDs_never_completed_witness :
    ((upsert newAckState "t" "r" [] true false 2 7 true
        true).state.pendingCompletions =
      ainsert newAckState.pendingCompletions 2
        (⟨7, "t", []⟩ : PendingCompletion)) ∧
    ((deleteRes newAckState "t" "r" [] true false 2 7 true
        true).state.pendingCompletions =
      ainsert newAckState.pendingCompletions 2
        (⟨7, "t", []⟩ : PendingCompletion)) ∧
    (((2 : Nat), (⟨7, "t", []⟩ : PendingCompletion)) ∈
      (handleSeq (deleteRes newAckState "t" "r" [] true false 2 7 true
        true).state (fun _ => false)
        [(⟨7, 7, "n", ["r"], "t", ""⟩ : AckMsg)]).1.pendingCompletions ∧
      (∀ e, ((2 : Nat), e) ∉
        (handleSeq (deleteRes newAckState "t" "r" [] true false 2 7 true
          true).state (fun _ => false)
          [(⟨7, 7, "n", ["r"], "t", ""⟩ : AckMsg)]).2)) ∧
    ((∀ q, ((2 : Nat), q) ∉
        (handleResourceVersionAck (upsert newAckState "t" "r" [] true false 2
          7 true true).state (fun _ => true)
          (⟨7, 7, "n", ["r"], "t", ""⟩ : AckMsg)).1.pendingCompletions) ∧
      (∀ e, ((2 : Nat), e) ∉
        (handleResourceVersionAck (upsert newAckState "t" "r" [] true false 2
          7 true true).state (fun _ => true)
          (⟨7, 7, "n", ["r"], "t", ""⟩ : AckMsg)).2)) :=
  ⟨(empty_nodeIDs_never_completed newAckState "t" "r" false 2 7 true rfl
      rfl).1,
   (empty_nodeIDs_never_completed newAckState "t" "r" false 2 7 true rfl
      rfl).2.1,
   (empty_nodeIDs_never_completed newAckState "t" "r" false 2 7 true rfl
      rfl).2.2.1
     (deleteRes newAckState "t" "r" [] true false 2 7 true true).state
     (fun _ => false) [(⟨7, 7, "n", ["r"], "t", ""⟩ : AckMsg)] (by decide) rfl,
   (empty_nodeIDs_never_completed newAckState "t" "r" false 2 7 true rfl
      rfl).2.2.2
     (upsert newAckState "t" "r" [] true false 2 7 true true).state
     (fun _ => true) (⟨7, 7, "n", ["r"], "t", ""⟩ : AckMsg) rfl⟩

/-- C2: when the message that removes a pending completion's last remaining
node satisfies `nackVersion ≥ V > ackVersion`, the completion is completed
with a `ProxyError` wrapping `ErrNackReceived` whose `Detail` is exactly the
message's detail string; when `V ≤ ackVersion` it is completed with nil; and
a completion event for it occurs only when the acking node is its sole
remaining node and the message clears that node's outstanding resources. -/
theorem nack_resolution_with_detail :
    ∀ (s : AckState) (canceled : Nat → Bool) (msg : AckMsg) (cid : Nat)
      (p : PendingCompletion),
      (s.pendingCompletions.map Prod.fst).Nodup →
      (cid, p) ∈ s.pendingCompletions →
      canceled cid = false →
      p.typeURL = msg.typeURL →
      p.version ≤ msg.nackVersion →
      ((∀ rset, p.remainingNodesResources = [(msg.nodeIP, rset)] →
          rsetEmpty (removeNames rset msg.resourceNames) = true →
          ((msg.ackVersion < p.version →
            (cid, some { err := BaseErr.nackReceived, detail := msg.detail }) ∈
              (handleResourceVersionAck s canceled msg).2) ∧
          (p.version ≤ msg.ackVersion →
            (cid, (none : Option ProxyError)) ∈
              (handleResourceVersionAck s canceled msg).2))) ∧
        (∀ e, (cid, e) ∈ (handleResourceVersionAck s canceled msg).2 →
          ∃ rset, p.remainingNodesResources = [(msg.nodeIP, rset)] ∧
            rsetEmpty (removeNames rset msg.resourceNames) = true)) := by
  intro s canceled msg cid p hnd hmem hc ht hn
  constructor
  · intro rset hr he
    constructor
    · intro hlt
      refine (mem_handle_events_iff s canceled msg cid _).mpr ⟨p, hmem, ?_⟩
      rw [hc]
      exact (processPending_completed_iff msg p _).mpr
        ⟨ht, hn, rset, hr, he, by rw [if_neg (by omega)]⟩
    · intro hle
      refine (mem_handle_events_iff s canceled msg cid _).mpr ⟨p, hmem, ?_⟩
      rw [hc]
      exact (processPending_completed_iff msg p _).mpr
        ⟨ht, hn, rset, hr, he, by rw [if_pos hle]⟩
  · intro e he'
    obtain ⟨q, hq, hproc⟩ := (mem_handle_events_iff s canceled msg cid e).mp he'
    have hqp : q = p := alist_value_unique hnd hq hmem
    subst hqp
    rw [hc] at hproc
    obtain ⟨-, -, rset, hr, he2, -⟩ :=
      (processPending_completed_iff msg q e).mp hproc
    exact ⟨rset, hr, he2⟩

/-- Witness for C2: a concrete pending completion for version 3 whose only
remaining node nacks (`ackVersion` 2 < 3 ≤ `nackVersion` 3) is completed
with a `ProxyError` carrying the message's detail string verbatim. -/
theorem nack_resolution_with_detail_witness :
    ((4 : Nat), some ({ err := BaseErr.nackReceived, detail := "oops" } :
      ProxyError)) ∈
      (handleResourceVersionAck
        { newAckState with pendingCompletions :=
            [(4, (⟨3, "t", [("n", some ["r"])]⟩ : PendingCompletion))] }
        (fun _ => false)
        (⟨2, 3, "n", ["r"], "t", "oops"⟩ : AckMsg)).2 :=
  ((nack_resolution_with_detail
      { newAckState with pendingCompletions :=
          [(4, (⟨3, "t", [("n", some ["r"])]⟩ : PendingCompletion))] }
      (fun _ => false) (⟨2, 3, "n", ["r"], "t", "oops"⟩ : AckMsg) 4
      (⟨3, "t", [("n", some ["r"])]⟩ : PendingCompletion)
      (by decide) (by decide) rfl rfl (by decide)).1
    (some ["r"]) rfl (by decide)).1 (by decide)

/-- C1 counterexample: in the claim's own two-node scenario (version 5,
resource `"bar/foo"`, nodes `"10.0.0.1"` and `"10.0.0.2"`), the first node's
only message carries `ackVersion` 0 (a NACK for version 5, since
`nackVersion` is 5) yet after the second node's clean ack the completion
still resolves successfully with `cb(nil)` — refuting the claim's "only if"
direction, which requires an ack with `ackVersion ≥ 5` from every targeted
node for a successful resolution. -/
theorem upsert_full_coverage_ack_refuted :
    ((handleSeq
        (upsert newAckState "cluster" "bar/foo" ["10.0.0.1", "10.0.0.2"] true
          true 1 5 true true).state
        (fun _ => false)
        [(⟨0, 5, "10.0.0.1", ["bar/foo"], "cluster", "failed"⟩ : AckMsg),
         (⟨5, 5, "10.0.0.2", ["bar/foo"], "cluster", ""⟩ : AckMsg)]).2 =
      [((1 : Nat), (none : Option ProxyError))]) ∧
    ¬(5 ≤ (0 : Nat)) := by decide

/-- C1 (amended/corrected): the example scenario holds as stated — after the
first node's ack the completion is still pending with only the second node
outstanding, and the second node's ack fires `cb(nil)` and completes it
successfully — but in general success is decided by the message that removes
the last remaining node alone: a non-canceled pending completion is
completed successfully by a message exactly when the message's typeURL
matches, its `nackVersion` and `ackVersion` are at least the target version,
the acking node is the completion's only remaining node, and the message
clears that node's outstanding resource names; messages that resolved
earlier nodes need only `nackVersion ≥ V` (their `ackVersion` may be below
`V`). -/
theorem upsert_full_coverage_ack_last_decides :
    ((handleResourceVersionAck
        (upsert newAckState "cluster" "bar/foo" ["10.0.0.1", "10.0.0.2"] true
          true 1 5 true true).state
        (fun _ => false)
        (⟨5, 5, "10.0.0.1", ["bar/foo"], "cluster", ""⟩ : AckMsg)).2 = [] ∧
      (handleResourceVersionAck
        (upsert newAckState "cluster" "bar/foo" ["10.0.0.1", "10.0.0.2"] true
          true 1 5 true true).state
        (fun _ => false)
        (⟨5, 5, "10.0.0.1", ["bar/foo"], "cluster",
          ""⟩ : AckMsg)).1.pendingCompletions =
        [(1, (⟨5, "cluster", [("10.0.0.2", some ["bar/foo"])]⟩ :
          PendingCompletion))] ∧
      (handleResourceVersionAck
        (handleResourceVersionAck
          (upsert newAckState "cluster" "bar/foo" ["10.0.0.1", "10.0.0.2"]
            true true 1 5 true true).state
          (fun _ => false)
          (⟨5, 5, "10.0.0.1", ["bar/foo"], "cluster", ""⟩ : AckMsg)).1
        (fun _ => false)
        (⟨5, 5, "10.0.0.2", ["bar/foo"], "cluster", ""⟩ : AckMsg)).2 =
        [((1 : Nat), (none : Option ProxyError))] ∧
      (handleResourceVersionAck
        (handleResourceVersionAck
          (upsert newAckState "cluster" "bar/foo" ["10.0.0.1", "10.0.0.2"]
            true true 1 5 true true).state
          (fun _ => false)
          (⟨5, 5, "10.0.0.1", ["bar/foo"], "cluster", ""⟩ : AckMsg)).1
        (fun _ => false)
        (⟨5, 5, "10.0.0.2", ["bar/foo"], "cluster",
          ""⟩ : AckMsg)).1.pendingCompletions = []) ∧
    (∀ (s : AckState) (canceled : Nat → Bool) (msg : AckMsg) (cid : Nat)
        (p : PendingCompletion),
      (s.pendingCompletions.map Prod.fst).Nodup →
      (cid, p) ∈ s.pendingCompletions →
      canceled cid = false →
      ((cid, (none : Option ProxyError)) ∈
          (handleResourceVersionAck s canceled msg).2 ↔
        p.typeURL = msg.typeURL ∧ p.version ≤ msg.nackVersion ∧
          p.version ≤ msg.ackVersion ∧
          ∃ rset, p.remainingNodesResources = [(msg.nodeIP, rset)] ∧
            rsetEmpty (removeNames rset msg.resourceNames) = true)) := by
  refine ⟨by decide, ?_⟩
  intro s canceled msg cid p hnd hmem hc
  constructor
  · intro hev
    obtain ⟨q, hq, hproc⟩ := (mem_handle_events_iff s canceled msg cid _).mp hev
    have hqp : q = p := alist_value_unique hnd hq hmem
    subst hqp
    rw [hc] at hproc
    obtain ⟨ht, hn, rset, hr, he, hE⟩ :=
      (processPending_completed_iff msg q _).mp hproc
    by_cases hack : q.version ≤ msg.ackVersion
    · exact ⟨ht, hn, hack, rset, hr, he⟩
    · rw [if_neg hack] at hE
      exact absurd hE (by simp)
  · rintro ⟨ht, hn, hack, rset, hr, he⟩
    refine (mem_handle_events_iff s canceled msg cid _).mpr ⟨p, hmem, ?_⟩
    rw [hc]
    exact (processPending_completed_iff msg p _).mpr
      ⟨ht, hn, rset, hr, he, by rw [if_pos hack]⟩

/-- Witness for C1 (amended): the success characterization instantiated at a
concrete single-node pending completion and a clean matching ack. -/
theorem upsert_full_coverage_ack_last_decides_witness :
    ((4 : Nat), (none : Option ProxyError)) ∈
      (handleResourceVersionAck
        { newAckState with pendingCompletions :=
            [(4, (⟨3, "u", [("n", some ["r"])]⟩ : PendingCompletion))] }
        (fun _ => false)
        (⟨3, 3, "n", ["r"], "u", ""⟩ : AckMsg)).2 :=
  (upsert_full_coverage_ack_last_decides.2
      { newAckState with pendingCompletions :=
          [(4, (⟨3, "u", [("n", some ["r"])]⟩ : PendingCompletion))] }
      (fun _ => false) (⟨3, 3, "n", ["r"], "u", ""⟩ : AckMsg) 4
      (⟨3, "u", [("n", some ["r"])]⟩ : PendingCompletion)
      (by decide) (by decide) rfl).mpr
    ⟨rfl, by decide, by decide, some ["r"], rfl, by decide⟩

end XdsAck
